import Mathlib

/-!
Verification of the NLFormer weighted forward-chaining reasoning engine
against its specification.  The repository ships only the Python demo
(`examples/python_demo.py`); the engine behind the `nlformer_python`
bindings (terms, unifier, softmax aggregator, rule index, inference
entry points) is not part of the available sources, so those components
are modelled here directly from the specification's component design
(spec.md sections 3, 4 and 4.6).  The demo's rule set is embedded from
the source file itself.
-/

namespace NLFormer

/-- Modelled from the spec: a term is a string token; it is a variable
iff its first character is the sigil `?` (spec section 4.1: `is_variable`
is true iff the term's first character is the variable sigil). -/
def isVariable (t : String) : Bool :=
  match t.data with
  | [] => false
  | c :: _ => c = '?'

/-- Modelled from the spec: a Pattern is an ordered pair of a predicate
name and an ordered sequence of argument tokens (spec section 3). -/
structure Pattern where
  predicate : String
  args : List String
deriving DecidableEq

/-- Modelled from the spec: a Substitution is a mapping from variable
name to constant, built incrementally during unification (spec section 3). -/
abbrev Subst : Type := List (String × String)

/-- Lookup of a variable in a substitution association list. -/
def lookupSubst : Subst → String → Option String
  | [], _ => none
  | (k, v) :: rest, x =>
      if x = k then some v else lookupSubst rest x

/-- Modelled from the spec: the unifier's left-to-right walk over
argument pairs (spec section 4.2): a rule-side variable is bound in the
substitution (failing if already bound to a different constant), a
rule-side constant must equal the fact-side argument exactly. -/
def unifyArgs : List String → List String → Subst → Option Subst
  | [], [], s => some s
  | f :: fs, r :: rs, s =>
      if isVariable r then
        match lookupSubst s r with
        | some c => if c = f then unifyArgs fs rs s else none
        | none => unifyArgs fs rs ((r, f) :: s)
      else if r = f then unifyArgs fs rs s else none
  | _, _, _ => none

/-- Modelled from the spec: `unify(fact, rule_antecedent)` fails
immediately if predicates differ or arities differ, otherwise walks the
argument pairs (spec section 4.2).  `none` is the NoMatch outcome. -/
def unify (fact ant : Pattern) : Option Subst :=
  if fact.predicate = ant.predicate ∧ fact.args.length = ant.args.length then
    unifyArgs fact.args ant.args []
  else none

/-- Modelled from the spec: grounding of a template's argument list,
replacing every variable with its bound constant; an unbound template
variable is a failure (spec section 4.3). -/
def groundArgs : List String → Subst → Option (List String)
  | [], _ => some []
  | a :: more, s =>
      if isVariable a then
        match lookupSubst s a with
        | some c => (groundArgs more s).map fun rest => c :: rest
        | none => none
      else
        (groundArgs more s).map fun rest => a :: rest

/-- Modelled from the spec: `ground(consequent_template, substitution)`
replaces every variable argument with its bound constant; constants pass
through unchanged (spec section 4.3). -/
def ground (template : Pattern) (s : Subst) : Option Pattern :=
  (groundArgs template.args s).map fun gargs => Pattern.mk template.predicate gargs

/-- Modelled from the spec: a Rule has a caller-assigned integer id, an
antecedent pattern, a consequent pattern template and a real weight
(spec section 3). -/
structure Rule where
  id : Int
  antecedent : Pattern
  consequent : Pattern
  weight : ℝ

/-- Maximum of a list of reals (0 for the empty list); used as the
stabilising shift of the softmax. -/
noncomputable def listMax : List ℝ → ℝ
  | [] => 0
  | x :: xs => xs.foldl max x

/-- Modelled from the spec: numerically stable softmax (spec section
4.4): the maximum input is subtracted from every score before
exponentiating, and the exponentials are normalised by their sum.
Defined for empty input as an empty output. -/
noncomputable def softmax (scores : List ℝ) : List ℝ :=
  let exps := scores.map fun s => Real.exp (s - listMax scores)
  exps.map fun e => e / exps.sum

/-- Modelled from the spec: the attention combination rule (spec section
4.4): compute attention shares over the raw weights with `softmax`, then
report the sum of (share × raw weight) over contributing rules. -/
noncomputable def aggregate (ws : List ℝ) : ℝ :=
  (List.zipWith (fun share w => share * w) (softmax ws) ws).sum

/-- Modelled from the spec: when a single rule contributed, its raw
weight passes through unchanged; otherwise the raw weights are combined
with the attention aggregator (spec section 4.6, `infer`). -/
noncomputable def combineWeights (ws : List ℝ) : ℝ :=
  match ws with
  | [w] => w
  | _ => aggregate ws

/-- Modelled from the spec: the rule index's candidate lookup (spec
section 4.5): the ordered sequence of rules whose antecedent predicate
is the given predicate, insertion order preserved; an empty sequence for
unknown predicates. -/
def candidatesFor (rules : List Rule) (p : String) : List Rule :=
  rules.filter fun r => r.antecedent.predicate = p

/-- Modelled from the spec: the raw rule activations of a single query
(spec section 4.6): each candidate rule whose antecedent unifies with
the query contributes its grounded consequent paired with its raw
weight, in rule order. -/
def activations (rules : List Rule) (query : Pattern) : List (Pattern × ℝ) :=
  (candidatesFor rules query.predicate).filterMap fun r =>
    (unify query r.antecedent).bind fun s =>
      (ground r.consequent s).map fun c => (c, r.weight)

/-- Group a new activation into an accumulator keyed by grounded
consequent, preserving the order in which consequents first appeared. -/
def insertActivation (acc : List (Pattern × List ℝ)) (c : Pattern) (w : ℝ) :
    List (Pattern × List ℝ) :=
  match acc with
  | [] => [(c, [w])]
  | (c₀, ws) :: rest =>
      if c₀ = c then (c₀, ws ++ [w]) :: rest
      else (c₀, ws) :: insertActivation rest c w

/-- Group a list of activations by grounded consequent identity, keys in
order of first production, each key carrying all its raw weights in
order. -/
def groupActivations (acts : List (Pattern × ℝ)) : List (Pattern × List ℝ) :=
  acts.foldl (fun acc a => insertActivation acc a.1 a.2) []

/-- Modelled from the spec: `infer(query)` (spec section 4.6): look up
candidate rules by the query's predicate, unify, ground, collect
(consequent, raw weight) pairs, and combine the raw weights of rules
producing the same grounded consequent with the attention aggregator;
results in the order consequents were first produced. -/
noncomputable def infer (rules : List Rule) (query : Pattern) : List (Pattern × ℝ) :=
  (groupActivations (activations rules query)).map fun g => (g.1, combineWeights g.2)

/-- Modelled from the spec: `infer_context(facts)` (spec section 4.6):
run the single-query inference for every fact in order and merge all
per-fact results by grounded consequent identity, the attention
combination applying to all contributing rule activations from all
facts together. -/
noncomputable def inferContext (rules : List Rule) (facts : List Pattern) :
    List (Pattern × ℝ) :=
  (groupActivations (facts.flatMap fun f => activations rules f)).map fun g =>
    (g.1, combineWeights g.2)

/-- Modelled from the spec: the layer loop of `infer_multi_layer` (spec
section 4.6).  One step runs the context inference's activation pass on
the current fact set, accumulates the raw activations, and feeds the
grounded consequents not already seen into the next layer; it stops when
a layer produces no new grounded consequent (fixpoint) or when the layer
budget is exhausted, whichever comes first.  The second component counts
the layers actually executed. -/
def multiStep (rules : List Rule) :
    Nat → List Pattern → List Pattern → List (Pattern × ℝ) →
      List (Pattern × ℝ) × Nat
  | 0, _, _, acc => (acc, 0)
  | fuel + 1, facts, seen, acc =>
      let layerActs := facts.flatMap fun f => activations rules f
      let derived := (groupActivations layerActs).map Prod.fst
      let newFacts := derived.filter fun c => decide (c ∉ seen)
      let acc₂ := acc ++ layerActs
      if newFacts = [] then (acc₂, 1)
      else
        let r := multiStep rules fuel newFacts (seen ++ newFacts) acc₂
        (r.1, r.2 + 1)

/-- Modelled from the spec: `infer_multi_layer(initial_facts,
max_layers)` (spec section 4.6): iterative forward chaining with the
initial facts marked as already seen, accumulating activations across
layers and combining all support for the same grounded consequent with
the attention aggregator. -/
noncomputable def inferMultiLayer (rules : List Rule) (initialFacts : List Pattern)
    (maxLayers : Nat) : List (Pattern × ℝ) :=
  (groupActivations (multiStep rules maxLayers initialFacts initialFacts []).1).map
    fun g => (g.1, combineWeights g.2)

/-- Number of forward-chaining layers actually executed by
`inferMultiLayer`. -/
def layersUsed (rules : List Rule) (initialFacts : List Pattern)
    (maxLayers : Nat) : Nat :=
  (multiStep rules maxLayers initialFacts initialFacts []).2

/-- The variables occurring in a pattern's argument list. -/
def varsOf (p : Pattern) : List String :=
  p.args.filter fun a => isVariable a

/-- Modelled from the spec: the load-time rule validation (spec sections
3 and 6): every variable appearing in a consequent template also appears
in its rule's antecedent (no free variables in the head), and rule ids
are pairwise distinct. -/
def checkRules (rules : List Rule) : Bool :=
  (rules.all fun r =>
    (varsOf r.consequent).all fun v => decide (v ∈ varsOf r.antecedent)) &&
  decide (List.Nodup (rules.map Rule.id))

/-- The demo rule set of `create_demo_rules` in
`examples/python_demo.py`, embedded field for field. -/
noncomputable def demoRules : List Rule :=
  [ Rule.mk 1 (Pattern.mk "is" ["?x", "car"]) (Pattern.mk "can" ["?x", "drive"]) 0,
    Rule.mk 2 (Pattern.mk "is" ["?x", "electricCar"]) (Pattern.mk "needs" ["?x", "fuel"]) (-5),
    Rule.mk 3 (Pattern.mk "is" ["?x", "damaged"]) (Pattern.mk "can" ["?x", "drive"]) (-3),
    Rule.mk 4 (Pattern.mk "can" ["?x", "drive"]) (Pattern.mk "needs" ["?x", "engine"]) 0,
    Rule.mk 5 (Pattern.mk "needs" ["?x", "engine"]) (Pattern.mk "has" ["?x", "parts"]) 0,
    Rule.mk 6 (Pattern.mk "is" ["?x", "truck"]) (Pattern.mk "can" ["?x", "carry"]) 0,
    Rule.mk 7 (Pattern.mk "can" ["?x", "carry"]) (Pattern.mk "needs" ["?x", "cargo"]) 0 ]

/-- The single demo rule `is(?x,car) -> can(?x,drive)` with weight 0,
used by the single-rule inference property. -/
noncomputable def ruleCarDrive : Rule :=
  Rule.mk 1 (Pattern.mk "is" ["?x", "car"]) (Pattern.mk "can" ["?x", "drive"]) 0

/-- Example rule for cross-fact aggregation: rain implies the ground is
wet, weight 1. -/
noncomputable def ruleRainWet : Rule :=
  Rule.mk 1 (Pattern.mk "rain" ["?x"]) (Pattern.mk "wet" ["ground"]) 1

/-- Example rule for cross-fact aggregation: a running sprinkler implies
the ground is wet, weight 2. -/
noncomputable def ruleSprinklerWet : Rule :=
  Rule.mk 2 (Pattern.mk "sprinkler" ["?x"]) (Pattern.mk "wet" ["ground"]) 2

/-- Example context whose two distinct facts each support the same
grounded consequent `wet(ground)` through different rules. -/
def contextFacts : List Pattern :=
  [Pattern.mk "rain" ["today"], Pattern.mk "sprinkler" ["on"]]

/-- Example rule deriving `can(?x,drive)` with weight 2; together with
`ruleDriveNo` it matches the same fact and derives the same grounded
consequent. -/
noncomputable def ruleDriveYes : Rule :=
  Rule.mk 1 (Pattern.mk "is" ["?x", "car"]) (Pattern.mk "can" ["?x", "drive"]) 2

/-- Example rule deriving `can(?x,drive)` with weight -2 from a
different antecedent pattern than `ruleDriveYes`. -/
noncomputable def ruleDriveNo : Rule :=
  Rule.mk 2 (Pattern.mk "is" ["?x", "?y"]) (Pattern.mk "can" ["?x", "drive"]) (-2)

/-- Summing a list divided pointwise by a constant divides the sum. -/
theorem sum_map_div (l : List ℝ) (t : ℝ) :
    (l.map fun e => e / t).sum = l.sum / t := by
  induction l with
  | nil => simp
  | cons x xs ih => simp [ih, add_div]

/-- The sum of the exponentials of a non-empty score list is positive. -/
theorem exps_sum_pos (scores : List ℝ) (m : ℝ) (h : scores ≠ []) :
    0 < (scores.map fun s => Real.exp (s - m)).sum := by
  apply List.sum_pos
  · intro x hx
    simp only [List.mem_map] at hx
    obtain ⟨s, _, rfl⟩ := hx
    exact Real.exp_pos _
  · simpa using h

/-- Unfolding equation of `softmax`. -/
theorem softmax_eq (scores : List ℝ) :
    softmax scores = (scores.map fun s => Real.exp (s - listMax scores)).map
      fun e => e / (scores.map fun s => Real.exp (s - listMax scores)).sum := rfl

/-- Folding `max` over a shifted list shifts the fold. -/
theorem foldl_max_add (xs : List ℝ) (a c : ℝ) :
    (xs.map fun s => s + c).foldl max (a + c) = xs.foldl max a + c := by
  induction xs generalizing a with
  | nil => simp
  | cons x xs ih => simp [List.foldl_cons, max_add_add_right, ih]

/-- The maximum of a non-empty shifted list is the shifted maximum. -/
theorem listMax_map_add (x : ℝ) (xs : List ℝ) (c : ℝ) :
    listMax ((x :: xs).map fun s => s + c) = listMax (x :: xs) + c := by
  simp only [listMax, List.map_cons]
  exact foldl_max_add xs x c

/-- Shift invariance of the stabilised softmax, as a helper equation. -/
theorem softmax_shift (scores : List ℝ) (c : ℝ) :
    softmax (scores.map fun s => s + c) = softmax scores := by
  cases scores with
  | nil => rfl
  | cons x xs =>
    have hmax := listMax_map_add x xs c
    have harg : ((x :: xs).map fun s => s + c).map
        (fun s => Real.exp (s - listMax ((x :: xs).map fun s => s + c))) =
        (x :: xs).map fun s => Real.exp (s - listMax (x :: xs)) := by
      rw [hmax, List.map_map]
      apply List.map_congr_left
      intro a _
      simp only [Function.comp]
      ring_nf
    rw [softmax_eq, softmax_eq, harg]

/-- Closed form of the attention blend of the weights 2 and -2. -/
theorem aggregate_two_neg_two :
    aggregate [(2:ℝ), -2] = (2 - 2 * Real.exp (-4)) / (1 + Real.exp (-4)) := by
  have hm : listMax [(2:ℝ), -2] = 2 := by
    simp [listMax]
  simp [aggregate, softmax_eq, hm, Real.exp_zero, show (2:ℝ) - 2 = 0 by norm_num,
    show (-2:ℝ) - 2 = -4 by norm_num]
  ring

/-- Closed form of the attention blend of the weights 1 and 2. -/
theorem aggregate_one_two :
    aggregate [(1:ℝ), 2] = (Real.exp (-1) + 2) / (Real.exp (-1) + 1) := by
  have hm : listMax [(1:ℝ), 2] = 2 := by
    simp [listMax]
  simp [aggregate, softmax_eq, hm, Real.exp_zero, show (1:ℝ) - 2 = -1 by norm_num,
    show (2:ℝ) - 2 = 0 by norm_num]
  ring

/-- A substitution entry surviving into the result of `unifyArgs`:
bindings present before the walk are still present afterwards. -/
theorem lookupSubst_mono (fs rs : List String) (s σ : Subst)
    (h : unifyArgs fs rs s = some σ) (k v : String)
    (hk : lookupSubst s k = some v) : lookupSubst σ k = some v := by
  induction fs generalizing rs s with
  | nil =>
    cases rs with
    | nil =>
      simp only [unifyArgs, Option.some.injEq] at h
      subst h
      exact hk
    | cons r rs => simp [unifyArgs] at h
  | cons f fs ih =>
    cases rs with
    | nil => simp [unifyArgs] at h
    | cons r rs =>
      simp only [unifyArgs] at h
      by_cases hv : isVariable r
      · rw [if_pos hv] at h
        cases hl : lookupSubst s r with
        | some c =>
          simp only [hl] at h
          by_cases hc : c = f
          · rw [if_pos hc] at h
            exact ih rs s h hk
          · rw [if_neg hc] at h
            exact absurd h (by simp)
        | none =>
          simp only [hl] at h
          refine ih rs ((r, f) :: s) h ?_
          have hkr : ¬(k = r) := by
            intro he
            rw [he, hl] at hk
            exact Option.noConfusion hk
          simpa [lookupSubst, hkr] using hk
      · rw [if_neg hv] at h
        by_cases hr : r = f
        · rw [if_pos hr] at h
          exact ih rs s h hk
        · rw [if_neg hr] at h
          exact absurd h (by simp)

/-- Soundness of the argument walk: on success, every rule-side variable
is bound to its fact-side argument and every rule-side constant equals
its fact-side argument. -/
theorem unifyArgs_sound (fs rs : List String) (s σ : Subst)
    (h : unifyArgs fs rs s = some σ) :
    ∀ p ∈ fs.zip rs,
      (isVariable p.2 = true → lookupSubst σ p.2 = some p.1) ∧
      (isVariable p.2 = false → p.2 = p.1) := by
  induction fs generalizing rs s with
  | nil => simp
  | cons f fs ih =>
    cases rs with
    | nil => simp [unifyArgs] at h
    | cons r rs =>
      intro p hp
      simp only [List.zip_cons_cons, List.mem_cons] at hp
      simp only [unifyArgs] at h
      by_cases hv : isVariable r
      · rw [if_pos hv] at h
        cases hl : lookupSubst s r with
        | some c =>
          simp only [hl] at h
          by_cases hc : c = f
          · rw [if_pos hc] at h
            rcases hp with hp | hp
            · subst hp
              refine ⟨fun _ => ?_, fun hnv => absurd hv (by simp [hnv])⟩
              exact lookupSubst_mono fs rs s σ h r f (hc ▸ hl)
            · exact ih rs s h p hp
          · rw [if_neg hc] at h
            exact absurd h (by simp)
        | none =>
          simp only [hl] at h
          rcases hp with hp | hp
          · subst hp
            refine ⟨fun _ => ?_, fun hnv => absurd hv (by simp [hnv])⟩
            exact lookupSubst_mono fs rs _ σ h r f (by simp [lookupSubst])
          · exact ih rs _ h p hp
      · rw [if_neg hv] at h
        by_cases hr : r = f
        · rw [if_pos hr] at h
          rcases hp with hp | hp
          · subst hp
            exact ⟨fun hv2 => absurd hv2 (by simp [hv]), fun _ => hr⟩
          · exact ih rs s h p hp
        · rw [if_neg hr] at h
          exact absurd h (by simp)

/-- Completeness of the argument walk: if a single global assignment of
variables to constants is compatible with every argument pair, the walk
succeeds. -/
theorem unifyArgs_complete (v : String → String) (fs : List String) :
    ∀ (rs : List String) (s : Subst), fs.length = rs.length →
      (∀ p ∈ fs.zip rs, (isVariable p.2 = true → v p.2 = p.1) ∧
        (isVariable p.2 = false → p.2 = p.1)) →
      (∀ k c, lookupSubst s k = some c → v k = c) →
      ∃ σ, unifyArgs fs rs s = some σ := by
  induction fs with
  | nil =>
    intro rs s hlen _ _
    cases rs with
    | nil => exact ⟨s, rfl⟩
    | cons r rs => simp at hlen
  | cons f fs ih =>
    intro rs s hlen hcompat hinv
    cases rs with
    | nil => simp at hlen
    | cons r rs =>
      have hhead := hcompat (f, r) (by simp)
      have htail : ∀ p ∈ fs.zip rs,
          (isVariable p.2 = true → v p.2 = p.1) ∧
          (isVariable p.2 = false → p.2 = p.1) :=
        fun p hp => hcompat p (by simp [hp])
      have hlen2 : fs.length = rs.length := by
        simpa using hlen
      by_cases hv : isVariable r
      · cases hl : lookupSubst s r with
        | some c =>
          have hcf : c = f := by
            have h1 := hinv r c hl
            have h2 := hhead.1 hv
            rw [h1] at h2
            exact h2
          simp only [unifyArgs, if_pos hv, hl, if_pos hcf]
          exact ih rs s hlen2 htail hinv
        | none =>
          simp only [unifyArgs, if_pos hv, hl]
          refine ih rs ((r, f) :: s) hlen2 htail ?_
          intro k c hk
          by_cases hkr : k = r
          · subst hkr
            have hfc : f = c := by
              simpa [lookupSubst] using hk
            rw [← hfc]
            exact hhead.1 hv
          · simp only [lookupSubst, if_neg hkr] at hk
            exact hinv k c hk
      · have hr : r = f := hhead.2 (by simpa using hv)
        simp only [unifyArgs, if_neg hv, if_pos hr]
        exact ih rs s hlen2 htail hinv

/-- The keys after inserting one activation: unchanged when the
consequent is already a key, appended otherwise. -/
theorem keys_insertActivation (acc : List (Pattern × List ℝ)) (c : Pattern) (w : ℝ) :
    (insertActivation acc c w).map Prod.fst =
      if c ∈ acc.map Prod.fst then acc.map Prod.fst
      else acc.map Prod.fst ++ [c] := by
  induction acc with
  | nil => simp [insertActivation]
  | cons p rest ih =>
    obtain ⟨c₀, ws⟩ := p
    by_cases hc : c₀ = c
    · subst hc
      simp [insertActivation]
    · have hcc : ¬(c = c₀) := fun he => hc he.symm
      by_cases hm : c ∈ rest.map Prod.fst
      · simp [insertActivation, hc, ih, hm, hcc]
      · simp [insertActivation, hc, ih, hm, hcc]

/-- Key membership in the grouping fold. -/
theorem mem_keys_groupActivations_aux (acts : List (Pattern × ℝ))
    (acc : List (Pattern × List ℝ)) (x : Pattern) :
    (x ∈ (acts.foldl (fun a p => insertActivation a p.1 p.2) acc).map Prod.fst) ↔
      x ∈ acc.map Prod.fst ∨ x ∈ acts.map Prod.fst := by
  induction acts generalizing acc with
  | nil => simp
  | cons a rest ih =>
    simp only [List.foldl_cons, List.map_cons, List.mem_cons]
    rw [ih]
    rw [keys_insertActivation]
    by_cases hm : a.1 ∈ acc.map Prod.fst
    · simp only [if_pos hm]
      constructor
      · tauto
      · rintro (h | h | h)
        · tauto
        · subst h
          tauto
        · tauto
    · simp only [if_neg hm, List.mem_append, List.mem_singleton]
      tauto

/-- The grouping fold keeps its keys pairwise distinct. -/
theorem nodup_keys_groupActivations_aux (acts : List (Pattern × ℝ))
    (acc : List (Pattern × List ℝ)) (h : (acc.map Prod.fst).Nodup) :
    ((acts.foldl (fun a p => insertActivation a p.1 p.2) acc).map Prod.fst).Nodup := by
  induction acts generalizing acc with
  | nil => simpa
  | cons a rest ih =>
    simp only [List.foldl_cons]
    apply ih
    rw [keys_insertActivation]
    by_cases hm : a.1 ∈ acc.map Prod.fst
    · simpa [hm]
    · simp only [if_neg hm]
      rw [List.nodup_append]
      exact ⟨h, List.nodup_singleton _, by simpa using hm⟩

/-- The grouped activations have pairwise distinct consequent keys. -/
theorem nodup_keys_groupActivations (acts : List (Pattern × ℝ)) :
    ((groupActivations acts).map Prod.fst).Nodup :=
  nodup_keys_groupActivations_aux acts [] (by simp)

/-- The grouped activations have exactly the consequents of the raw
activations as keys. -/
theorem mem_keys_groupActivations (acts : List (Pattern × ℝ)) (x : Pattern) :
    x ∈ (groupActivations acts).map Prod.fst ↔ x ∈ acts.map Prod.fst := by
  rw [groupActivations.eq_def]
  rw [mem_keys_groupActivations_aux]
  simp

/-- The layer loop never executes more layers than its budget. -/
theorem multiStep_count_le (rules : List Rule) (fuel : Nat) :
    ∀ (facts seen : List Pattern) (acc : List (Pattern × ℝ)),
      (multiStep rules fuel facts seen acc).2 ≤ fuel := by
  induction fuel with
  | zero =>
    intro facts seen acc
    simp [multiStep]
  | succ n ih =>
    intro facts seen acc
    simp only [multiStep]
    split
    · simp
    · exact Nat.succ_le_succ (ih _ _ _)

/-- A layer all of whose grounded consequents were already seen ends the
layer loop immediately, regardless of the remaining budget. -/
theorem multiStep_fixpoint (rules : List Rule) (fuel : Nat)
    (facts seen : List Pattern) (acc : List (Pattern × ℝ))
    (hall : ∀ c ∈ (facts.flatMap fun f => activations rules f).map Prod.fst, c ∈ seen) :
    multiStep rules (fuel + 1) facts seen acc =
      (acc ++ (facts.flatMap fun f => activations rules f), 1) := by
  have hnew : ((groupActivations (facts.flatMap fun f => activations rules f)).map
      Prod.fst).filter (fun c => !decide (c ∈ seen)) = [] := by
    rw [List.filter_eq_nil_iff]
    intro c hc
    have hmem := (mem_keys_groupActivations _ c).mp hc
    simpa using hall c hmem
  simp [multiStep, hnew]

/-- C1: for every non-empty input sequence of real scores, `softmax`
returns a sequence of the same length in which every output value is
non-negative and the outputs sum to 1 (hence within the 1e-6
tolerance). -/
theorem softmax_normalized (scores : List ℝ) (h : scores ≠ []) :
    (softmax scores).length = scores.length ∧
    (∀ y ∈ softmax scores, 0 ≤ y) ∧
    (softmax scores).sum = 1 ∧
    |(softmax scores).sum - 1| ≤ 1 / 1000000 := by
  have hpos := exps_sum_pos scores (listMax scores) h
  have hsum : (softmax scores).sum = 1 := by
    rw [softmax_eq, sum_map_div, div_self (ne_of_gt hpos)]
  refine ⟨by simp [softmax_eq], ?_, hsum, by rw [hsum]; norm_num⟩
  intro y hy
  rw [softmax_eq] at hy
  simp only [List.mem_map] at hy
  obtain ⟨e, ⟨s, _, rfl⟩, rfl⟩ := hy
  exact div_nonneg (Real.exp_pos _).le hpos.le

/-- Witness for C1 at the concrete non-empty input `[1, 2]`. -/
theorem softmax_normalized_witness :
    (softmax [(1:ℝ), 2]).length = [(1:ℝ), 2].length ∧
    (∀ y ∈ softmax [(1:ℝ), 2], 0 ≤ y) ∧
    (softmax [(1:ℝ), 2]).sum = 1 ∧
    |(softmax [(1:ℝ), 2]).sum - 1| ≤ 1 / 1000000 :=
  softmax_normalized [(1:ℝ), 2] (by simp)

/-- C2: competing rule activations for one grounded consequent are
combined by softmax attention shares over the raw weights, the reported
weight being the sum of share times raw weight; for the weights 2 and -2
the blend lies strictly between -2 and 2 and is neither 0 nor either
raw weight, and the engine reports exactly this blended weight as the
single result when two rules with these weights derive the same grounded
consequent from one fact. -/
theorem aggregate_softmax_blend :
    (∀ ws : List ℝ, aggregate ws =
      (List.zipWith (fun share w => share * w) (softmax ws) ws).sum) ∧
    infer [ruleDriveYes, ruleDriveNo] (Pattern.mk "is" ["v", "car"]) =
      [(Pattern.mk "can" ["v", "drive"], aggregate [(2:ℝ), -2])] ∧
    (-2 < aggregate [(2:ℝ), -2] ∧ aggregate [(2:ℝ), -2] < 2) ∧
    aggregate [(2:ℝ), -2] ≠ 0 ∧ aggregate [(2:ℝ), -2] ≠ 2 ∧
    aggregate [(2:ℝ), -2] ≠ -2 := by
  have hE0 : (0:ℝ) < Real.exp (-4) := Real.exp_pos _
  have hE1 : Real.exp (-4) < 1 := Real.exp_lt_one_iff.mpr (by norm_num)
  have hT : (0:ℝ) < 1 + Real.exp (-4) := by positivity
  have h0 : 0 < aggregate [(2:ℝ), -2] := by
    rw [aggregate_two_neg_two]
    exact div_pos (by linarith) hT
  have h2 : aggregate [(2:ℝ), -2] < 2 := by
    rw [aggregate_two_neg_two, div_lt_iff₀ hT]
    linarith
  exact ⟨fun ws => rfl, by rfl, ⟨by linarith, h2⟩, ne_of_gt h0, ne_of_lt h2,
    by linarith⟩

/-- C3: the layer loop of `infer_multi_layer` executes at most
`max_layers` layers, stops immediately after a layer that produces no
grounded consequent not already seen (fixpoint), and the entry point is
the aggregation of the activations the loop accumulated, so every call
terminates. -/
theorem inferMultiLayer_terminates (rules : List Rule) (initialFacts : List Pattern)
    (maxLayers : Nat) (facts seen : List Pattern) (acc : List (Pattern × ℝ))
    (fuel : Nat)
    (hfix : ∀ c ∈ (facts.flatMap fun f => activations rules f).map Prod.fst, c ∈ seen) :
    layersUsed rules initialFacts maxLayers ≤ maxLayers ∧
    multiStep rules (fuel + 1) facts seen acc =
      (acc ++ (facts.flatMap fun f => activations rules f), 1) ∧
    inferMultiLayer rules initialFacts maxLayers =
      (groupActivations (multiStep rules maxLayers initialFacts initialFacts []).1).map
        (fun g => (g.1, combineWeights g.2)) :=
  ⟨multiStep_count_le rules maxLayers initialFacts initialFacts [],
    multiStep_fixpoint rules fuel facts seen acc hfix, rfl⟩

/-- Witness for C3: with no rules every layer is a fixpoint, and the
budget of 3 layers is respected. -/
theorem inferMultiLayer_terminates_witness :
    layersUsed [] [Pattern.mk "a" []] 3 ≤ 3 ∧
    multiStep [] (0 + 1) [Pattern.mk "a" []] [] [] =
      ([] ++ ([Pattern.mk "a" []].flatMap fun f => activations [] f), 1) ∧
    inferMultiLayer [] [Pattern.mk "a" []] 3 =
      (groupActivations (multiStep [] 3 [Pattern.mk "a" []] [Pattern.mk "a" []] []).1).map
        (fun g => (g.1, combineWeights g.2)) :=
  inferMultiLayer_terminates [] [Pattern.mk "a" []] 3 [Pattern.mk "a" []] [] [] 0
    (by simp [activations, candidatesFor])

/-- C4: `unify` returns NoMatch (`none`) when predicates differ or
arities differ, an inconsistent binding surfaces as a normal no-match,
on success every rule-side variable is bound to its fact-side argument
and every rule-side constant equals its fact-side argument, a globally
consistent assignment guarantees success, and the spec's two concrete
examples behave as stated. -/
theorem unify_spec (fact ant : Pattern) (σ : Subst) (v : String → String) :
    (fact.predicate ≠ ant.predicate → unify fact ant = none) ∧
    (fact.args.length ≠ ant.args.length → unify fact ant = none) ∧
    (unify fact ant = some σ → ∀ p ∈ fact.args.zip ant.args,
      (isVariable p.2 = true → lookupSubst σ p.2 = some p.1) ∧
      (isVariable p.2 = false → p.2 = p.1)) ∧
    (fact.predicate = ant.predicate → fact.args.length = ant.args.length →
      (∀ p ∈ fact.args.zip ant.args,
        (isVariable p.2 = true → v p.2 = p.1) ∧
        (isVariable p.2 = false → p.2 = p.1)) →
      ∃ σ₂, unify fact ant = some σ₂) ∧
    unify (Pattern.mk "is" ["car", "car"]) (Pattern.mk "is" ["?x", "car"]) =
      some [("?x", "car")] ∧
    unify (Pattern.mk "is" ["car"]) (Pattern.mk "is" ["?x", "car"]) = none ∧
    unify (Pattern.mk "p" ["a", "b"]) (Pattern.mk "p" ["?x", "?x"]) = none := by
  refine ⟨?_, ?_, ?_, ?_, by decide, by decide, by decide⟩
  · intro hp
    rw [unify, if_neg]
    intro hand
    exact hp hand.1
  · intro hl
    rw [unify, if_neg]
    intro hand
    exact hl hand.2
  · intro h
    rw [unify] at h
    by_cases hcond : fact.predicate = ant.predicate ∧ fact.args.length = ant.args.length
    · rw [if_pos hcond] at h
      exact unifyArgs_sound fact.args ant.args [] σ h
    · rw [if_neg hcond] at h
      exact absurd h (by simp)
  · intro hp hl hcompat
    rw [unify, if_pos ⟨hp, hl⟩]
    exact unifyArgs_complete v fact.args ant.args [] hl hcompat
      (fun k c hk => by simp [lookupSubst] at hk)

/-- Witness for C4: predicate mismatch, arity mismatch, soundness on the
successful spec example, and completeness on the same example, all at
concrete inputs. -/
theorem unify_spec_witness :
    unify (Pattern.mk "is" ["car", "car"]) (Pattern.mk "has" ["car", "car"]) = none ∧
    unify (Pattern.mk "is" ["car"]) (Pattern.mk "is" ["?x", "car"]) = none ∧
    (∀ p ∈ ["car", "car"].zip ["?x", "car"],
      (isVariable p.2 = true → lookupSubst [("?x", "car")] p.2 = some p.1) ∧
      (isVariable p.2 = false → p.2 = p.1)) ∧
    (∃ σ₂, unify (Pattern.mk "is" ["car", "car"]) (Pattern.mk "is" ["?x", "car"]) =
      some σ₂) := by
  refine ⟨?_, ?_, ?_, ?_⟩
  · exact (unify_spec (Pattern.mk "is" ["car", "car"]) (Pattern.mk "has" ["car", "car"])
      [] (fun _ => "")).1 (by decide)
  · exact (unify_spec (Pattern.mk "is" ["car"]) (Pattern.mk "is" ["?x", "car"])
      [] (fun _ => "")).2.1 (by decide)
  · exact (unify_spec (Pattern.mk "is" ["car", "car"]) (Pattern.mk "is" ["?x", "car"])
      [("?x", "car")] (fun _ => "")).2.2.1 (by decide)
  · exact (unify_spec (Pattern.mk "is" ["car", "car"]) (Pattern.mk "is" ["?x", "car"])
      [] (fun _ => "car")).2.2.2.1 (by decide) (by decide) (by decide)

/-- C5: with exactly the rule `is(?x,car) -> can(?x,drive)` of weight 0
matching the query, `infer(is(vehicle,car))` returns exactly the single
result `(can(vehicle,drive), 0)`, the consequent grounded by the
unifier's substitution and the raw weight passed through unchanged; the
same holds inside the full demo rule set, where that rule is the only
one matching the query. -/
theorem infer_single_rule :
    infer [ruleCarDrive] (Pattern.mk "is" ["vehicle", "car"]) =
      [(Pattern.mk "can" ["vehicle", "drive"], 0)] ∧
    infer demoRules (Pattern.mk "is" ["vehicle", "car"]) =
      [(Pattern.mk "can" ["vehicle", "drive"], 0)] :=
  ⟨by rfl, by rfl⟩

/-- C6: `infer_context` merges the per-fact results by grounded
consequent identity — its result keys are pairwise distinct and it is
the attention combination of all rule activations of all facts taken
together — and on a context whose two distinct facts support the same
grounded consequent through different rules it returns that consequent
once, with the cross-fact blend of both raw weights (strictly between
the two raw weights 1 and 2). -/
theorem inferContext_cross_fact (rules : List Rule) (facts : List Pattern) :
    ((inferContext rules facts).map Prod.fst).Nodup ∧
    inferContext rules facts =
      (groupActivations (facts.flatMap fun f => activations rules f)).map
        (fun g => (g.1, combineWeights g.2)) ∧
    inferContext [ruleRainWet, ruleSprinklerWet] contextFacts =
      [(Pattern.mk "wet" ["ground"], aggregate [(1:ℝ), 2])] ∧
    1 < aggregate [(1:ℝ), 2] ∧ aggregate [(1:ℝ), 2] < 2 := by
  have hE0 : (0:ℝ) < Real.exp (-1) := Real.exp_pos _
  have hT : (0:ℝ) < Real.exp (-1) + 1 := by positivity
  refine ⟨?_, rfl, ?_, ?_, ?_⟩
  · have h := nodup_keys_groupActivations (facts.flatMap fun f => activations rules f)
    simpa [inferContext, List.map_map, Function.comp] using h
  · simp [inferContext, contextFacts, activations, candidatesFor, ruleRainWet,
      ruleSprinklerWet, unify, unifyArgs, isVariable, lookupSubst, ground, groundArgs,
      groupActivations, insertActivation, combineWeights]
  · rw [aggregate_one_two, lt_div_iff₀ hT]
    linarith
  · rw [aggregate_one_two, div_lt_iff₀ hT]
    linarith

/-- C7: the stabilised softmax is invariant under adding a constant to
every input score, and in particular agrees on `[100,101,102]` and
`[0,1,2]`. -/
theorem softmax_shift_invariant (scores : List ℝ) (c : ℝ) :
    softmax (scores.map fun s => s + c) = softmax scores ∧
    softmax [(100:ℝ), 101, 102] = softmax [(0:ℝ), 1, 2] := by
  refine ⟨softmax_shift scores c, ?_⟩
  have h := softmax_shift [(0:ℝ), 1, 2] 100
  have hmap : ([(0:ℝ), 1, 2].map fun s => s + 100) = [100, 101, 102] := by norm_num
  rw [hmap] at h
  exact h

/-- C8: a query whose predicate matches no rule yields success with an
empty result: the rule-index lookup returns an empty candidate sequence
for every predicate not present in the rule set, inference on such a
predicate returns the empty sequence, and the demo engine returns the
empty sequence on `unknownPredicate`. -/
theorem infer_unknown_predicate (rules : List Rule) (p : String)
    (h : ∀ r ∈ rules, r.antecedent.predicate ≠ p) :
    candidatesFor rules p = [] ∧
    (∀ args : List String, infer rules (Pattern.mk p args) = []) ∧
    infer demoRules (Pattern.mk "unknownPredicate" ["a"]) = [] := by
  have hc : candidatesFor rules p = [] := by
    rw [candidatesFor, List.filter_eq_nil_iff]
    intro r hr
    simpa using h r hr
  refine ⟨hc, ?_, by rfl⟩
  intro args
  simp [infer, activations, hc, groupActivations]

/-- Witness for C8 with the empty rule set and the predicate `q`. -/
theorem infer_unknown_predicate_witness :
    candidatesFor [] "q" = [] ∧
    (∀ args : List String, infer [] (Pattern.mk "q" args) = []) ∧
    infer demoRules (Pattern.mk "unknownPredicate" ["a"]) = [] :=
  infer_unknown_predicate [] "q" (by simp)

/-- C9: softmax of the empty sequence is the empty sequence, with no
error. -/
theorem softmax_empty : softmax [] = [] := rfl

/-- C10: every rule built by the demo's `create_demo_rules` satisfies
the head-variable invariant, its ids are 1 through 7 and pairwise
distinct, so the demo rule set passes the load-time validation. -/
theorem demoRules_valid :
    checkRules demoRules = true ∧
    demoRules.map Rule.id = [1, 2, 3, 4, 5, 6, 7] ∧
    (demoRules.map Rule.id).Nodup := by
  refine ⟨by rfl, by rfl, by decide⟩

end NLFormer
